import Mathlib

/- Verification development for the wikicrawl repository, a Confluence-wiki
crawler that renders HTML reports (crawl.py, work.py, htmlwriter.py,
get_visits.py).  The Python sources are shallowly embedded: Python strings
are `String`, lists are `List`, dictionaries are association lists or
`Option`-valued lookups, calls that may raise are functions into `Except`,
and the nondeterministic completion order of the thread pool is an explicit
permutation parameter wherever it could matter. -/

namespace Wikicrawl

/-- Code-point lexicographic comparison of character lists.  This is the
comparison Python uses for `str < str`; it agrees with Lean's `String.lt`
but is defined by structural recursion so that concrete instances evaluate
inside the kernel. -/
def charListLt : List Char → List Char → Bool
  | [], [] => false
  | [], _ :: _ => true
  | _ :: _, [] => false
  | c :: cs, d :: ds =>
    if c.toNat < d.toNat then true
    else if d.toNat < c.toNat then false
    else charListLt cs ds

/-- Python `a < b` on strings. -/
def strLt (a b : String) : Bool :=
  charListLt a.data b.data

/-- Python `s.startswith(p)` on the underlying character lists. -/
def charListStartsWith : List Char → List Char → Bool
  | _, [] => true
  | [], _ :: _ => false
  | c :: cs, p :: ps => c == p && charListStartsWith cs ps

/-- Python `s.startswith(p)`. -/
def strStartsWith (s p : String) : Bool :=
  charListStartsWith s.data p.data

/-- The character class kept by the substitution `re.sub(r"[^a-z0-9 ]", "", ...)`
in `scrub_title` (crawl.py line 29): lower-case letters, digits and space. -/
def scrubKeep (c : Char) : Bool :=
  (97 ≤ c.toNat && c.toNat ≤ 122) || (48 ≤ c.toNat && c.toNat ≤ 57) || c == ' '

/-- crawl.py `scrub_title` (lines 28-29):
`re.sub(r"[^a-z0-9 ]", "", title.lower()).strip()`.
Lower-casing is per character; after the substitution the only strippable
whitespace left is the space character, so Python's `strip()` is exactly
dropping spaces from both ends.  (Python's `str.lower` also folds non-ASCII
letters, which `Char.toLower` leaves alone; such characters are removed by
the substitution either way.) -/
def scrub_title (title : String) : String :=
  let kept := (title.data.map Char.toLower).filter scrubKeep
  String.mk (((kept.dropWhile (· == ' ')).reverse.dropWhile (· == ' ')).reverse)

/-- crawl.py `Page.__lt__` (lines 115-116): pages compare by the scrubbed
title key. -/
def titleLt (a b : String) : Bool :=
  strLt (scrub_title a) (scrub_title b)

/-- Insert `x` into `l` in front of the first element that is not strictly
below `x` under `lt`.  Used by `sortedBy`. -/
def insertSorted (lt : α → α → Bool) (x : α) : List α → List α
  | [] => [x]
  | y :: ys => if lt y x then y :: insertSorted lt x ys else x :: y :: ys

/-- Model of Python's builtin `sorted` under the strict comparison `lt`
(Python's sort consults only `__lt__`): a stable insertion sort.  All stable
sorts of a strict weak ordering agree, so this is a faithful value-level
model of Python's stable timsort. -/
def sortedBy (lt : α → α → Bool) : List α → List α
  | [] => []
  | x :: xs => insertSorted lt x (sortedBy lt xs)

/-- `xml.sax.saxutils.escape` as used by htmlwriter.py: replace `&`, `<`
and `>` by entities.  Python performs three sequential `str.replace` passes
with `&` first, which is the same as this single per-character pass. -/
def escape (s : String) : String :=
  String.mk ((s.data.map (fun c =>
    if c == '&' then "&amp;".data
    else if c == '<' then "&lt;".data
    else if c == '>' then "&gt;".data
    else [c])).flatten)

/-- htmlwriter.py `prep_html(html="", text="", href="", klass="")` (lines
122-129).  Python truthiness of a string argument is non-emptiness. -/
def prep_html (html text href klass : String) : String :=
  let html1 := if html = "" then escape text else html
  let html2 := if href = "" then html1 else "<a href='" ++ href ++ "'>" ++ html1 ++ "</a>"
  if klass = "" then html2 else "<span class='" ++ klass ++ "'>" ++ html2 ++ "</span>"

/-- work.py `work_in_threads(seq, fn, max_workers)` (lines 21-37): run `fn`
on every item of `seq` in a worker pool and yield `(item, fn item)` pairs;
a per-item call that raises is logged via `write_message` and its pair is
skipped (`continue`), never re-raised.  A raising Python callable is
embedded as a function into `Except`.  The pool yields pairs in completion
order — a permutation of the order modelled here; none of the verified
counting or membership properties depend on it.  `maxWorkers` bounds the
number of threads and does not influence the value stream. -/
def work_in_threads {ι ε ρ : Type} (seq : List ι) (fn : ι → Except ε ρ)
    (_maxWorkers : Nat) : List (ι × ρ) :=
  seq.filterMap (fun item =>
    match fn item with
    | Except.ok r => some (item, r)
    | Except.error _ => none)

/-- `Except.isOk`-style discriminator (not in this toolchain's core). -/
def exceptOk : Except ε ρ → Bool
  | Except.ok _ => true
  | Except.error _ => false

/-- crawl.py `Page.fetch_page_information` retry loop (lines 122-133).
`attempt k` models the k-th call of
`confluence.get_all_restrictions_for_content(self.id)`;
`for retry in range(3)` with `continue` on `HTTPError`, `break` on success
and a `for`-`else` that re-raises the last stored error unrolls to exactly
this expression.  The surrounding `report_http_errors()` context manager
logs and re-raises, leaving the value unchanged. -/
def fetchRestrictionsRetried (attempt : Nat → Except ε ρ) : Except ε ρ :=
  match attempt 0 with
  | Except.ok r => Except.ok r
  | Except.error _ =>
    match attempt 1 with
    | Except.ok r => Except.ok r
    | Except.error _ =>
      match attempt 2 with
      | Except.ok r => Except.ok r
      | Except.error e => Except.error e

/-- crawl.py line 222: the worker count handed to `work_in_threads` for the
parallel page-prefetch phase of `Space.get_api_pages`,
`max_workers=(self.size // 300)+1`. -/
def prefetchWorkers (size : Nat) : Nat :=
  size / 300 + 1

/-- crawl.py `BORING_ADMINS` (lines 272-278); a Python set used only for
membership tests. -/
def BORING_ADMINS : List String :=
  ["Chat Notifications",
   "Copy Space for Confluence",
   "Jira Ops Confluence integration",
   "Lucidchart Diagrams Connector",
   "Microsoft Teams for Confluence Cloud"]

/-- A raw user record (a JSON object), modelled as an association list. -/
abbrev UserInfo := List (String × String)

/-- Python `key in d` / `d[key]` on a JSON object: first binding wins (JSON
objects cannot carry duplicate keys). -/
def dictGet (d : UserInfo) (k : String) : Option String :=
  (d.find? (fun kv => kv.1 == k)).map (fun kv => kv.2)

/-- crawl.py `user_name` (lines 31-35): the value of the first key present
among username/displayName/publicName/email/accountId, else "UNKNOWN". -/
def user_name (ui : UserInfo) : String :=
  ((["username", "displayName", "publicName", "email", "accountId"].filterMap
    (dictGet ui)).head?).getD "UNKNOWN"

/-- The `subjects` object of a permission record: the group result names
when the `group` key is present, and the raw user records under
`user.results`. -/
structure SubjectsR where
  group : Option (List String)
  user : List UserInfo
deriving DecidableEq

/-- A space permission record as read by crawl.py: `p.get('operation')` as
the `(operation, targetType)` pair when the key is present, the
`anonymousAccess` flag, and the `subjects` object. -/
structure PermR where
  operation : Option (String × String)
  anonymousAccess : Bool
  subjects : SubjectsR
deriving DecidableEq

/-- crawl.py `name_for_permission` (lines 301-312): `'anonymous'` for an
anonymous grant, else the first group name if a group subject is present,
else `user_name` of the first user record.  Python indexes `results[0]` and
would raise `IndexError` on an empty result list — the API never returns
one; the embedding totalises that corner with placeholder values. -/
def name_for_permission (p : PermR) : String :=
  if p.anonymousAccess then "anonymous"
  else
    match p.subjects.group with
    | some gs => gs.headD "!IndexError"
    | none => user_name (p.subjects.user.headD [])

/-- The sort key of crawl.py line 264: `"" if n == "administrators" else n`. -/
def adminSortKey (n : String) : String :=
  if n = "administrators" then "" else n

/-- The strict comparison on names induced by `adminSortKey`, as consulted
by Python's key-based `sorted`. -/
def adminLt (a b : String) : Bool :=
  strLt (adminSortKey a) (adminSortKey b)

/-- crawl.py `Space.admins` (lines 256-264): names of space-administer
grants, with `addon_`-prefixed and boring names dropped, sorted with
`"administrators"` keyed first.  The permission list is the lazily fetched
`self.permissions`, taken here as the argument.  `p.get('operation') ==
{'operation': 'administer', 'targetType': 'space'}` compares the whole
sub-object, i.e. the `(operation, targetType)` pair. -/
def admins (permissions : List PermR) : List String :=
  let has_perm := (permissions.filter
    (fun p => p.operation == some ("administer", "space"))).map name_for_permission
  let not_addon := has_perm.filter (fun n => !(strStartsWith n "addon_"))
  let not_boring := not_addon.filter (fun n => !(BORING_ADMINS.contains n))
  sortedBy adminLt not_boring

/-- Two identical space-administer grants for the user "bob". -/
def dupAdminPerm : PermR :=
  ⟨some ("administer", "space"), false, ⟨none, [[("username", "bob")]]⟩⟩

/-- A space-administer grant for a group with the empty name. -/
def emptyNameAdminPerm : PermR :=
  ⟨some ("administer", "space"), false, ⟨some [""], []⟩⟩

/-- A space-administer grant for the group "administrators". -/
def adminGroupPerm : PermR :=
  ⟨some ("administer", "space"), false, ⟨some ["administrators"], []⟩⟩

/-- A demo permission list: admin grants for user "zed", the group
"administrators", an add-on account, a boring admin and user "alice", plus
one unrelated read grant. -/
def adminsDemoPerms : List PermR :=
  [⟨some ("administer", "space"), false, ⟨none, [[("username", "zed")]]⟩⟩,
   ⟨some ("administer", "space"), false, ⟨some ["administrators"], []⟩⟩,
   ⟨some ("administer", "space"), false, ⟨none, [[("username", "addon_metrics")]]⟩⟩,
   ⟨some ("administer", "space"), false, ⟨none, [[("username", "Chat Notifications")]]⟩⟩,
   ⟨some ("administer", "space"), false, ⟨none, [[("username", "alice")]]⟩⟩,
   ⟨some ("read", "space"), false, ⟨some ["confluence-users"], []⟩⟩]

/-- The fields of a fetched page that `Space.fetch_pages` / `root_pages`
read: `id` (absent for placeholder nodes), `parent_id` (the last ancestor's
id, if any), and `status`.  Confluence ids are nonempty strings, so Python
truthiness of `page.parent_id` coincides with presence. -/
structure PageR where
  id : Option Nat
  parentId : Option Nat
  status : String
deriving DecidableEq

/-- crawl.py `Space.pages_with_status` (lines 173-174). -/
def pages_with_status (allPages : List PageR) (status : String) : List PageR :=
  allPages.filter (fun p => p.status == status)

/-- The dict `pages_by_id = {p.id: p for p in self.pages if p.id is not
None}` (crawl.py line 181), as a lookup from an id to the index in
`current` of the page stored under it; a dict comprehension keeps the last
page carrying a duplicated id. -/
def pages_by_id (current : List PageR) (pid : Nat) : Option Nat :=
  ((current.enum.reverse).find? (fun ip => ip.2.id == some pid)).map (fun ip => ip.1)

/-- The parent link the loop of `Space.fetch_pages` (crawl.py lines 189-196)
leaves on the page at index `i` of `current`: on `if page.parent_id:` it
tries `pages_by_id[page.parent_id]`; the bare `except` catches the
`KeyError` of a dangling id, logs `"No parent for page in ..."` and leaves
`parent = None`.  Pages arrive in the thread pool's completion order, but
each page's link depends only on the id index, so the order is
irrelevant. -/
def parentIndex (current : List PageR) (i : Nat) : Option Nat :=
  match current[i]? with
  | none => none
  | some p =>
    match p.parentId with
    | none => none
    | some pid => pages_by_id current pid

/-- The `children` list accumulated on the page at index `j` by the same
loop (`page.parent.children.append(page)`), in processing order. -/
def childrenIndices (current : List PageR) (j : Nat) : List Nat :=
  (List.range current.length).filter (fun i => parentIndex current i == some j)

/-- crawl.py `Space.root_pages` (lines 239-240): the current pages whose
`parent` is `None`. -/
def rootIndices (current : List PageR) : List Nat :=
  (List.range current.length).filter (fun i => parentIndex current i == none)

/-- The three-page input of the tree-builder test scenario:
`[{id:1,parent:null}, {id:2,parent:1}, {id:3,parent:99}]`, all current. -/
def examplePages : List PageR :=
  [⟨some 1, none, "current"⟩, ⟨some 2, some 1, "current"⟩, ⟨some 3, some 99, "current"⟩]

/-- The fields of `Page` read by the recursive renderer `write_page` and by
`Page.descendants`: the title (children are rendered in sorted order), the
`restrictions` value — `None`, or the (group names, user names) pair, which
crawl.py lines 137-138 set only when a list is nonempty, so the stored
tuple is always truthy — and the child list built by the tree builder. -/
inductive PTree : Type where
  | node (title : String) (restrictions : Option (List String × List String))
      (children : List PTree)

def PTree.title : PTree → String
  | .node t _ _ => t

def PTree.restrictions : PTree → Option (List String × List String)
  | .node _ r _ => r

def PTree.children : PTree → List PTree
  | .node _ _ cs => cs

/-- crawl.py `Page.descendants` (lines 145-146):
`1 + sum(c.descendants() for c in self.children)`.  (`attach` only carries
the membership proof for termination.) -/
def PTree.descendants : PTree → Nat
  | .node _ _ children =>
    1 + (children.attach.map (fun c => PTree.descendants c.1)).sum
termination_by t => sizeOf t
decreasing_by
  have h := List.sizeOf_lt_of_mem c.2
  simp only [PTree.node.sizeOf_spec]
  omega

/-- crawl.py `sorted(page.children)` comparison: `Page.__lt__` on titles. -/
def childLt (a b : PTree) : Bool :=
  titleLt a.title b.title

/-- crawl.py `write_page` (lines 348-402), restricted to its return value,
the number of restricted pages of the rendered subtree: `this_restricted`
is true when the page carries restrictions (`isSome`, see `PTree`) or, by
the `elif`, when `parent_restricted` was passed down; the function returns
`(1 if this_restricted else 0)` plus the recursive counts over
`sorted(page.children)` (the `else: write_leaf` branch adds nothing).  The
HTML pushed to the writer collaborator never feeds back into the count and
is not modelled.  The sort runs over the membership-annotated children
(`attach`) purely for termination; the comparison is `childLt` on the
underlying pages. -/
def writePageCount : PTree → Bool → Nat
  | .node _ restr children, parent_restricted =>
    let this_restricted := restr.isSome || parent_restricted
    (if this_restricted then 1 else 0) +
      ((sortedBy (fun a b => childLt a.1 b.1) children.attach).map
        (fun c => writePageCount c.1 this_restricted)).sum
termination_by t _ => sizeOf t
decreasing_by
  have h := List.sizeOf_lt_of_mem c.2
  simp only [PTree.node.sizeOf_spec]
  omega

/-- Specification-side reading of the renderer: one Boolean per node of the
subtree, in pre-order — whether that node is explicitly restricted or
inherits a restriction from an ancestor (seeded by the flag argument).
"The count of restricted pages" of the claim is the number of `true`
entries of this list. -/
def restrictedFlags : PTree → Bool → List Bool
  | .node _ restr children, parent_restricted =>
    let this_restricted := restr.isSome || parent_restricted
    this_restricted ::
      (children.attach.map (fun c => restrictedFlags c.1 this_restricted)).flatten
termination_by t _ => sizeOf t
decreasing_by
  have h := List.sizeOf_lt_of_mem c.2
  simp only [PTree.node.sizeOf_spec]
  omega

/-- A 3-node chain: an explicitly restricted root with two nested
unrestricted descendants. -/
def restrictedChain : PTree :=
  .node "root" (some (["some-group"], [])) [.node "child" none [.node "grandchild" none []]]

/-- The sequential tail of `Space.get_api_pages` (crawl.py lines 225-230):
starting at `start`, fetch a chunk, stop on an empty one, otherwise emit it
and advance `start` by its length.  The Python `while True:` loop gets an
explicit iteration bound `fuel`, since for an ill-behaved backing it need
not terminate; theorems quantify over sufficient fuel. -/
def seqPages (fetch : Nat → List α) : Nat → Nat → List α
  | 0, _ => []
  | fuel + 1, start =>
    let content := fetch start
    if content.isEmpty then [] else content ++ seqPages fetch fuel (start + content.length)

/-- The paginated backing-store contract of the wiki REST API (spec §6):
a container holding `records` answers the chunk request at offset `start`
with `records[start : start + chunkSize]`.  crawl.py's
`Space.get_api_pages_chunk` issues exactly this request with
`limit=chunk_size` (the `report_http_errors` wrapper only logs and
re-raises). -/
def pageChunks (records : List α) (chunkSize start : Nat) : List α :=
  (records.drop start).take chunkSize

/-- crawl.py `Space.get_api_pages` (lines 209-230) against a backing chunk
fetcher.  `chunkSize` is the source's `chunk_size` variable (crawl.py fixes
it to 100; the pagination algorithm is uniform in it, and the spec's
scenarios pin down the page shape instead).  For `type == "page"`
(`isPage = true`) the advisory `self.size` yields the prefetch offsets
`starts = range(0, size, chunk_size)`; when nonempty, those chunks are
fetched through `work_in_threads` with `max_workers=(size // 300)+1` and
emitted in the pool's completion `order` (theorems take any permutation of
`starts`), after which the sequential loop resumes at
`starts[-1] + chunk_size`.  Blog posts (`isPage = false`) skip the prefetch
and run the sequential loop from offset 0. -/
def get_api_pages (isPage : Bool) (fetch : Nat → List α) (chunkSize size fuel : Nat)
    (order : List Nat) : List α :=
  let starts := if isPage then List.range' 0 ((size + chunkSize - 1) / chunkSize) chunkSize
    else []
  if starts.isEmpty then seqPages fetch fuel 0
  else
    ((work_in_threads order (fun s => (Except.ok (fetch s) : Except Unit (List α)))
        (prefetchWorkers size)).flatMap (fun pr => pr.2)) ++
      seqPages fetch fuel (starts.getLastD 0 + chunkSize)

/-- A 5-item workload whose third item's function raises (embedded as
`Except.error`). -/
def fiveItemsFn : Nat → Except String Nat :=
  fun i => if i = 3 then Except.error "boom" else Except.ok (10 * i)

/-- C9: The title sort key (`scrub_title`, used by `Page.__lt__`) is
case-insensitive and ignores punctuation: "The Page!" and "the page" map to
the same key, and sorting ["Zeta", "alpha", "Beta!"] under the key yields
["alpha", "Beta!", "Zeta"]. -/
theorem scrub_title_sort_key :
    scrub_title "The Page!" = scrub_title "the page" ∧
    sortedBy titleLt ["Zeta", "alpha", "Beta!"] = ["alpha", "Beta!", "Zeta"] := by
  exact ⟨by decide, by decide⟩

/-- C10: when the `html` argument of `prep_html` is non-empty the `text`
argument is completely ignored (the result depends only on `html`, `href`,
`klass`, and `text` is neither escaped nor emitted); HTML escaping of
`text` is applied exactly when `html` is empty. -/
theorem prep_html_text_ignored :
    (∀ html text text' href klass, html ≠ "" →
      prep_html html text href klass = prep_html html text' href klass) ∧
    (∀ text href klass,
      prep_html "" text href klass = prep_html (escape text) "" href klass) ∧
    prep_html "" "a&b<c>" "" "" = "a&amp;b&lt;c&gt;" ∧
    prep_html "<b>bold</b>" "IGNORED & not escaped" "" "" = "<b>bold</b>" := by
  refine ⟨fun html text text' href klass h => ?_, fun text href klass => ?_, by decide, by decide⟩
  · simp only [prep_html, if_neg h]
  · by_cases h : escape text = "" <;>
      simp [prep_html, h, show escape "" = "" from rfl]

/-- Witness for C10 at a concrete input: changing `text` does not change
the result when `html` is non-empty. -/
theorem prep_html_text_ignored_witness :
    prep_html "<b>x</b>" "first text" "url" "k" = prep_html "<b>x</b>" "other text" "url" "k" :=
  prep_html_text_ignored.1 "<b>x</b>" "first text" "other text" "url" "k" (by decide)

/-- C7 counterexample: there is no fixed constant bounding the worker count
`(size // 300) + 1` that `Space.get_api_pages` passes to `work_in_threads`
for the parallel prefetch phase. -/
theorem prefetchWorkers_unbounded :
    ¬ ∃ B : Nat, ∀ size : Nat, prefetchWorkers size ≤ B := by
  rintro ⟨B, h⟩
  have h2 := h (300 * (B + 1))
  have h3 : prefetchWorkers (300 * (B + 1)) = B + 2 := by
    simp only [prefetchWorkers, Nat.mul_div_cancel_left _ (by norm_num : (0:ℕ) < 300)]
  omega

/-- C7 amended: the prefetch worker count is scaled to the estimated size
(monotone in it) and is at least 1, but it is not bounded above: it exceeds
any constant `B` at size `300 * B`. -/
theorem prefetchWorkers_scaled :
    (∀ s t : Nat, s ≤ t → prefetchWorkers s ≤ prefetchWorkers t) ∧
    (∀ s : Nat, 1 ≤ prefetchWorkers s) ∧
    (∀ B : Nat, B < prefetchWorkers (300 * B)) := by
  refine ⟨fun s t h => ?_, fun s => ?_, fun B => ?_⟩
  · exact Nat.succ_le_succ (Nat.div_le_div_right h)
  · exact Nat.le_add_left 1 _
  · have h3 : prefetchWorkers (300 * B) = B + 1 := by
      simp only [prefetchWorkers, Nat.mul_div_cancel_left _ (by norm_num : (0:ℕ) < 300)]
    omega

/-- Witness for C7 (amended): monotonicity at concrete sizes. -/
theorem prefetchWorkers_scaled_witness :
    prefetchWorkers 100 ≤ prefetchWorkers 4000 :=
  prefetchWorkers_scaled.1 100 4000 (by norm_num)

/-- C5: the per-page restrictions fetch is retried up to 3 times on HTTP
failure before the error is allowed to propagate: it succeeds whenever some
attempt within the budget succeeds (and the returned value is an attempt's
value), and an HTTP error reaches the caller only when all three attempts
failed — in which case the last error is raised.  (The loop body has no
sleep; the model has no notion of delay.) -/
theorem fetch_page_information_retries (attempt : Nat → Except ε ρ) :
    ((∃ k, k < 3 ∧ exceptOk (attempt k) = true) →
      exceptOk (fetchRestrictionsRetried attempt) = true) ∧
    (∀ e, fetchRestrictionsRetried attempt = Except.error e →
      (∀ k, k < 3 → exceptOk (attempt k) = false) ∧ attempt 2 = Except.error e) ∧
    (∀ r, fetchRestrictionsRetried attempt = Except.ok r →
      ∃ k, k < 3 ∧ attempt k = Except.ok r) := by
  refine ⟨?_, ?_, ?_⟩
  · rintro ⟨k, hk, hok⟩
    rcases h0 : attempt 0 with e0 | r0
    · rcases h1 : attempt 1 with e1 | r1
      · rcases h2 : attempt 2 with e2 | r2
        · exfalso
          interval_cases k <;> simp_all [exceptOk]
        · simp [fetchRestrictionsRetried, h0, h1, h2, exceptOk]
      · simp [fetchRestrictionsRetried, h0, h1, exceptOk]
    · simp [fetchRestrictionsRetried, h0, exceptOk]
  · intro e he
    rcases h0 : attempt 0 with e0 | r0
    · rcases h1 : attempt 1 with e1 | r1
      · rcases h2 : attempt 2 with e2 | r2
        · simp only [fetchRestrictionsRetried, h0, h1, h2] at he
          refine ⟨fun k hk => ?_, he⟩
          interval_cases k <;> simp [h0, h1, h2, exceptOk]
        · simp [fetchRestrictionsRetried, h0, h1, h2] at he
      · simp [fetchRestrictionsRetried, h0, h1] at he
    · simp [fetchRestrictionsRetried, h0] at he
  · intro r hr
    rcases h0 : attempt 0 with e0 | r0
    · rcases h1 : attempt 1 with e1 | r1
      · rcases h2 : attempt 2 with e2 | r2
        · simp [fetchRestrictionsRetried, h0, h1, h2] at hr
        · refine ⟨2, by omega, ?_⟩
          simp only [fetchRestrictionsRetried, h0, h1, h2, Except.ok.injEq] at hr
          rw [h2, hr]
      · refine ⟨1, by omega, ?_⟩
        simp only [fetchRestrictionsRetried, h0, h1, Except.ok.injEq] at hr
        rw [h1, hr]
    · refine ⟨0, by omega, ?_⟩
      simp only [fetchRestrictionsRetried, h0, Except.ok.injEq] at hr
      rw [h0, hr]

/-- Witness for C5: a fetch whose first two attempts fail and whose third
succeeds returns successfully. -/
theorem fetch_page_information_retries_witness :
    exceptOk (fetchRestrictionsRetried
      (fun k => if k = 2 then Except.ok 7 else Except.error "http 503")) = true :=
  (fetch_page_information_retries _).1 ⟨2, by omega, by decide⟩

/-- C3: `work_in_threads` never lets a per-item exception escape: its
result is a plain pair list (no error component); an item whose function
raises contributes no pair, every pair present comes from a successful
item, every successful item contributes its pair, and for the 5-item
workload with exactly one raising item the stream holds exactly 4 pairs. -/
theorem work_in_threads_isolates_exceptions :
    (∀ (ι ε ρ : Type) (items : List ι) (fn : ι → Except ε ρ) (w : Nat),
      (work_in_threads items fn w).length = items.countP (fun i => exceptOk (fn i)) ∧
      (∀ i r, (i, r) ∈ work_in_threads items fn w → i ∈ items ∧ fn i = Except.ok r) ∧
      (∀ i r, i ∈ items → fn i = Except.ok r → (i, r) ∈ work_in_threads items fn w)) ∧
    work_in_threads [1, 2, 3, 4, 5] fiveItemsFn 10 = [(1, 10), (2, 20), (4, 40), (5, 50)] ∧
    (work_in_threads [1, 2, 3, 4, 5] fiveItemsFn 10).length = 4 := by
  refine ⟨fun ι ε ρ items fn w => ⟨?_, ?_, ?_⟩, by decide, by decide⟩
  · induction items with
    | nil => rfl
    | cons x xs ih =>
      rcases h : fn x with e | r <;>
        simp [work_in_threads, h, List.countP_cons, exceptOk, ih, work_in_threads.eq_def] <;>
        simpa [work_in_threads] using ih
  · intro i r hmem
    simp only [work_in_threads, List.mem_filterMap] at hmem
    obtain ⟨a, ha, hg⟩ := hmem
    rcases h : fn a with e | v <;> simp only [h] at hg
    · exact absurd hg (by simp)
    · simp only [Option.some.injEq, Prod.mk.injEq] at hg
      obtain ⟨rfl, rfl⟩ := hg
      exact ⟨ha, h⟩
  · intro i r hi hok
    simp only [work_in_threads, List.mem_filterMap]
    exact ⟨i, hi, by simp [hok]⟩

/-- Witness for C3: the successful item 4 yields its pair in the stream. -/
theorem work_in_threads_isolates_exceptions_witness :
    (4, 40) ∈ work_in_threads [1, 2, 3, 4, 5] fiveItemsFn 10 :=
  (work_in_threads_isolates_exceptions.1 Nat String Nat [1, 2, 3, 4, 5] fiveItemsFn 10).2.2
    4 40 (by decide) (by rfl)

theorem insertSorted_perm (lt : α → α → Bool) (x : α) (l : List α) :
    (insertSorted lt x l).Perm (x :: l) := by
  induction l with
  | nil => exact List.Perm.refl _
  | cons y ys ih =>
    by_cases h : lt y x
    · simp only [insertSorted, if_pos h]
      exact (ih.cons y).trans (List.Perm.swap x y ys)
    · simp only [insertSorted, if_neg h]
      exact List.Perm.refl _

theorem sortedBy_perm (lt : α → α → Bool) (l : List α) : (sortedBy lt l).Perm l := by
  induction l with
  | nil => exact List.Perm.refl _
  | cons x xs ih => exact (insertSorted_perm lt x (sortedBy lt xs)).trans (ih.cons x)

theorem insertSorted_pairwise {lt : α → α → Bool}
    (hasymm : ∀ a b, lt a b = true → lt b a = false)
    (hnegtrans : ∀ a b c, lt b a = false → lt c b = false → lt c a = false)
    (x : α) (l : List α) (hl : l.Pairwise (fun u v => lt v u = false)) :
    (insertSorted lt x l).Pairwise (fun u v => lt v u = false) := by
  induction l with
  | nil => simp [insertSorted]
  | cons y ys ih =>
    rcases List.pairwise_cons.mp hl with ⟨hy, hys⟩
    by_cases h : lt y x
    · simp only [insertSorted, if_pos h]
      refine List.pairwise_cons.mpr ⟨?_, ih hys⟩
      intro v hv
      have hv' : v ∈ x :: ys := (insertSorted_perm lt x ys).mem_iff.mp hv
      rcases List.mem_cons.mp hv' with rfl | hvys
      · exact hasymm y v h
      · exact hy v hvys
    · simp only [insertSorted, if_neg h]
      refine List.pairwise_cons.mpr ⟨?_, hl⟩
      intro v hv
      rcases List.mem_cons.mp hv with rfl | hvys
      · exact Bool.eq_false_iff.mpr h
      · exact hnegtrans x y v (Bool.eq_false_iff.mpr h) (hy v hvys)

theorem sortedBy_pairwise {lt : α → α → Bool}
    (hasymm : ∀ a b, lt a b = true → lt b a = false)
    (hnegtrans : ∀ a b c, lt b a = false → lt c b = false → lt c a = false)
    (l : List α) :
    (sortedBy lt l).Pairwise (fun u v => lt v u = false) := by
  induction l with
  | nil => simp [sortedBy]
  | cons x xs ih => exact insertSorted_pairwise hasymm hnegtrans x _ ih

theorem charListLt_asymm : ∀ as bs : List Char,
    charListLt as bs = true → charListLt bs as = false := by
  intro as
  induction as with
  | nil =>
    intro bs h
    cases bs with
    | nil => simp [charListLt] at h
    | cons b bs => simp [charListLt]
  | cons a as ih =>
    intro bs h
    cases bs with
    | nil => simp [charListLt] at h
    | cons b bs =>
      simp only [charListLt] at h ⊢
      by_cases h1 : a.toNat < b.toNat
      · rw [if_neg (by omega), if_pos h1]
      · by_cases h2 : b.toNat < a.toNat
        · rw [if_neg h1, if_pos h2] at h
          exact absurd h (by simp)
        · rw [if_neg h1, if_neg h2] at h
          rw [if_neg h2, if_neg h1]
          exact ih bs h

theorem charListLt_negtrans : ∀ as bs cs : List Char,
    charListLt bs as = false → charListLt cs bs = false → charListLt cs as = false := by
  intro as
  induction as with
  | nil =>
    intro bs cs h1 h2
    cases cs with
    | nil => simp [charListLt]
    | cons c cs => simp [charListLt]
  | cons a as ih =>
    intro bs cs h1 h2
    cases bs with
    | nil => simp [charListLt] at h1
    | cons b bs =>
      cases cs with
      | nil => simp [charListLt] at h2
      | cons c cs =>
        simp only [charListLt] at h1 h2 ⊢
        by_cases hba : b.toNat < a.toNat
        · rw [if_pos hba] at h1
          exact absurd h1 (by simp)
        · rw [if_neg hba] at h1
          by_cases hcb : c.toNat < b.toNat
          · rw [if_pos hcb] at h2
            exact absurd h2 (by simp)
          · rw [if_neg hcb] at h2
            rw [if_neg (by omega : ¬ c.toNat < a.toNat)]
            by_cases hac : a.toNat < c.toNat
            · rw [if_pos hac]
            · rw [if_neg hac]
              have hab : ¬ a.toNat < b.toNat := by omega
              have hbc : ¬ b.toNat < c.toNat := by omega
              rw [if_neg hab] at h1
              rw [if_neg hbc] at h2
              exact ih bs cs h1 h2

theorem charListLt_nil_eq (cs : List Char) (h : charListLt [] cs = false) : cs = [] := by
  cases cs with
  | nil => rfl
  | cons c cs => simp [charListLt] at h

theorem adminLt_asymm : ∀ a b, adminLt a b = true → adminLt b a = false :=
  fun _ _ h => charListLt_asymm _ _ h

theorem adminLt_negtrans : ∀ a b c, adminLt b a = false → adminLt c b = false →
    adminLt c a = false :=
  fun _ _ _ h1 h2 => charListLt_negtrans _ _ _ h1 h2

theorem pairwise_head_pinned {l : List String}
    (hpw : l.Pairwise (fun a b => adminLt b a = false))
    (hmem : "administrators" ∈ l) (hnone : "" ∉ l) :
    l.head? = some "administrators" := by
  cases l with
  | nil => cases hmem
  | cons x xs =>
    by_cases hx : x = "administrators"
    · simp [hx]
    · exfalso
      rcases List.mem_cons.mp hmem with h | h
      · exact hx h.symm
      · have hfalse := (List.pairwise_cons.mp hpw).1 _ h
        have hdata : (adminSortKey x).data = [] := by
          refine charListLt_nil_eq _ ?_
          simpa [adminLt, strLt, adminSortKey] using hfalse
        have hkey : adminSortKey x = "" := by
          have hmk : String.mk (adminSortKey x).data = String.mk [] := by rw [hdata]
          exact hmk
        rw [adminSortKey, if_neg hx] at hkey
        exact hnone (hkey ▸ List.mem_cons_self x xs)

/-- C6 counterexample: `Space.admins` does not deduplicate — two identical
space-administer grants for the same user yield the name twice, so the
returned list is not `Nodup` — and the "administrators first" pin can also
fail: a grantee named `""` ties with the pinned key and, arriving first,
stays ahead of "administrators" in the stable sort. -/
theorem admins_not_deduplicated :
    (admins [dupAdminPerm, dupAdminPerm] = ["bob", "bob"] ∧
      ¬ (admins [dupAdminPerm, dupAdminPerm]).Nodup) ∧
    (admins [emptyNameAdminPerm, adminGroupPerm] = ["", "administrators"] ∧
      "administrators" ∈ admins [emptyNameAdminPerm, adminGroupPerm] ∧
      (admins [emptyNameAdminPerm, adminGroupPerm]).head? ≠ some "administrators") := by
  exact ⟨⟨by decide, by decide⟩, by decide, by decide, by decide⟩

/-- C6 amended: `Space.admins` returns the names holding the
space-administer permission — excluding names starting with `addon_` and
names in the configured boring-admins denylist — **sorted but not
deduplicated** (multiplicities preserved), with "administrators" sorted
first whenever present, provided the empty string is not among the names
(its sort key would tie with the pinned "administrators" key). -/
theorem admins_sorted_not_deduplicated (perms : List PermR) :
    (admins perms).Perm
      ((((perms.filter (fun p => p.operation == some ("administer", "space"))).map
          name_for_permission).filter (fun n => !(strStartsWith n "addon_"))).filter
        (fun n => !(BORING_ADMINS.contains n))) ∧
    (admins perms).Pairwise (fun a b => adminLt b a = false) ∧
    ("administrators" ∈ admins perms → "" ∉ admins perms →
      (admins perms).head? = some "administrators") := by
  have hpw : (admins perms).Pairwise (fun a b => adminLt b a = false) := by
    simp only [admins]
    exact sortedBy_pairwise adminLt_asymm adminLt_negtrans _
  refine ⟨?_, hpw, fun hmem hnone => pairwise_head_pinned hpw hmem hnone⟩
  simp only [admins]
  exact sortedBy_perm _ _

/-- Witness for C6 (amended): on the demo permissions the group
"administrators" is present and pinned to the head of the sorted list. -/
theorem admins_sorted_not_deduplicated_witness :
    (admins adminsDemoPerms).head? = some "administrators" :=
  (admins_sorted_not_deduplicated adminsDemoPerms).2.2 (by decide) (by decide)

/-- C4: tree construction tolerates a dangling `parent_id` without raising:
a current page whose `parent_id` misses the id index keeps `parent = None`
(after the logged `KeyError`) and so appears among the root pages; on the
scenario input `[{id:1,parent:null}, {id:2,parent:1}, {id:3,parent:99}]`,
page 1 is a root with exactly one child (page 2) and page 3 is also a
root. -/
theorem fetch_pages_dangling_parent :
    (∀ (ps : List PageR) (i : Nat) (p : PageR) (pid : Nat),
      (pages_with_status ps "current")[i]? = some p →
      p.parentId = some pid →
      pages_by_id (pages_with_status ps "current") pid = none →
      parentIndex (pages_with_status ps "current") i = none ∧
        i ∈ rootIndices (pages_with_status ps "current")) ∧
    rootIndices (pages_with_status examplePages "current") = [0, 2] ∧
    childrenIndices (pages_with_status examplePages "current") 0 = [1] ∧
    childrenIndices (pages_with_status examplePages "current") 1 = [] ∧
    childrenIndices (pages_with_status examplePages "current") 2 = [] := by
  refine ⟨fun ps i p pid hget hpid hmiss => ?_, by decide, by decide, by decide, by decide⟩
  have hnone : parentIndex (pages_with_status ps "current") i = none := by
    simp [parentIndex, hget, hpid, hmiss]
  refine ⟨hnone, ?_⟩
  have hlen : i < (pages_with_status ps "current").length := by
    rcases List.getElem?_eq_some.mp hget with ⟨h, _⟩
    exact h
  simp [rootIndices, List.mem_filter, List.mem_range, hlen, hnone]

/-- Witness for C4: page 3 of the scenario (index 2, dangling parent 99) is
left parentless and counted among the roots. -/
theorem fetch_pages_dangling_parent_witness :
    parentIndex (pages_with_status examplePages "current") 2 = none ∧
      2 ∈ rootIndices (pages_with_status examplePages "current") :=
  fetch_pages_dangling_parent.1 examplePages 2 ⟨some 3, some 99, "current"⟩ 99
    (by decide) (by decide) (by decide)

theorem writePageCount_children_sum (cs : List PTree) (f : PTree → Nat) :
    ((sortedBy (fun a b : {x // x ∈ cs} => childLt a.1 b.1) cs.attach).map
      (fun c => f c.1)).sum = (cs.map f).sum := by
  have hperm := sortedBy_perm (fun a b : {x // x ∈ cs} => childLt a.1 b.1) cs.attach
  rw [(hperm.map (fun c => f c.1)).sum_eq, List.attach_map_coe]

theorem descendants_node (ti : String) (r : Option (List String × List String))
    (cs : List PTree) :
    (PTree.node ti r cs).descendants = 1 + (cs.map PTree.descendants).sum := by
  rw [PTree.descendants]
  simp [List.attach_map_coe]

theorem writePageCount_node (ti : String) (r : Option (List String × List String))
    (cs : List PTree) (pr : Bool) :
    writePageCount (.node ti r cs) pr =
      (if r.isSome || pr then 1 else 0) +
        (cs.map (fun c => writePageCount c (r.isSome || pr))).sum := by
  rw [writePageCount]
  rw [writePageCount_children_sum cs (fun c => writePageCount c (r.isSome || pr))]

theorem restrictedFlags_node (ti : String) (r : Option (List String × List String))
    (cs : List PTree) (pr : Bool) :
    restrictedFlags (.node ti r cs) pr =
      (r.isSome || pr) :: (cs.map (fun c => restrictedFlags c (r.isSome || pr))).flatten := by
  rw [restrictedFlags]
  simp [List.attach_map_coe]

/-- C8: for every page of a (cycle-free) tree, `Page.descendants` satisfies
`descendant_count(P) = 1 + sum(descendant_count(c) for c in P.children)`,
is always at least 1, and equals exactly 1 for a leaf. -/
theorem descendants_recurrence :
    (∀ t : PTree, t.descendants = 1 + (t.children.map PTree.descendants).sum) ∧
    (∀ t : PTree, 1 ≤ t.descendants) ∧
    (∀ t : PTree, t.children = [] → t.descendants = 1) := by
  have hnode : ∀ t : PTree, t.descendants = 1 + (t.children.map PTree.descendants).sum := by
    intro t
    obtain ⟨ti, r, cs⟩ := t
    rw [descendants_node]
    rfl
  refine ⟨hnode, fun t => ?_, fun t h => ?_⟩
  · rw [hnode]
    omega
  · rw [hnode, h]
    rfl

/-- Witness for C8: a leaf has descendant count exactly 1. -/
theorem descendants_recurrence_witness :
    (PTree.node "leaf" none []).descendants = 1 :=
  descendants_recurrence.2.2 (PTree.node "leaf" none []) rfl

theorem writePageCount_eq_flags_aux : ∀ (n : Nat) (t : PTree), sizeOf t ≤ n → ∀ pr : Bool,
    writePageCount t pr = (restrictedFlags t pr).count true := by
  intro n
  induction n with
  | zero =>
    intro t h
    obtain ⟨ti, r, cs⟩ := t
    simp only [PTree.node.sizeOf_spec] at h
    omega
  | succ n ih =>
    intro t h pr
    obtain ⟨ti, r, cs⟩ := t
    simp only [PTree.node.sizeOf_spec] at h
    rw [writePageCount_node, restrictedFlags_node]
    have hc : ∀ c ∈ cs, writePageCount c (r.isSome || pr) =
        (restrictedFlags c (r.isSome || pr)).count true := by
      intro c hcmem
      have hsz := List.sizeOf_lt_of_mem hcmem
      exact ih c (by omega) _
    rw [List.map_congr_left hc, List.count_cons, List.count_flatten, List.map_map]
    cases hb : (r.isSome || pr)
    · simp [Function.comp_def]
    · simp [Function.comp_def]
      omega

/-- C2: the restricted-page count returned by the recursive renderer
`write_page` equals the number of nodes that are explicitly restricted or
inherit restriction from an ancestor (each counted exactly once, regardless
of subtree size); in particular the 3-node chain with an explicitly
restricted root and 2 unrestricted descendants returns 3. -/
theorem write_page_restricted_count :
    (∀ (t : PTree) (pr : Bool),
      writePageCount t pr = (restrictedFlags t pr).count true) ∧
    writePageCount restrictedChain false = 3 := by
  have hmain : ∀ (t : PTree) (pr : Bool),
      writePageCount t pr = (restrictedFlags t pr).count true :=
    fun t pr => writePageCount_eq_flags_aux (sizeOf t) t (le_refl _) pr
  refine ⟨hmain, ?_⟩
  rw [hmain]
  simp [restrictedChain, restrictedFlags_node]

theorem work_in_threads_all_ok {ι ρ : Type} (seq : List ι) (f : ι → ρ) (w : Nat) :
    work_in_threads seq (fun i => (Except.ok (f i) : Except Unit ρ)) w =
      seq.map (fun i => (i, f i)) := by
  induction seq with
  | nil => rfl
  | cons x xs ih =>
    simp only [work_in_threads, List.filterMap_cons] at ih ⊢
    simpa using ih

theorem seqPages_empty_chunk (fetch : Nat → List α) (start : Nat)
    (h : (fetch start).isEmpty = true) :
    ∀ fuel, seqPages fetch fuel start = [] := by
  intro fuel
  cases fuel with
  | zero => rfl
  | succ n => simp [seqPages, h]

theorem seqPages_cons (fetch : Nat → List α) (fuel start : Nat)
    (h : (fetch start).isEmpty = false) :
    seqPages fetch (fuel + 1) start =
      fetch start ++ seqPages fetch fuel (start + (fetch start).length) := by
  rw [seqPages]
  simp [h]

theorem seqPages_scenario {α : Type} (a b c : α) (k : Nat) :
    seqPages (pageChunks [a, b, c] 2) (k + 3) 0 = [a, b, c] := by
  show seqPages (pageChunks [a, b, c] 2) (k + 2 + 1) 0 = [a, b, c]
  rw [seqPages_cons (pageChunks [a, b, c] 2) (k + 2) 0 rfl]
  show pageChunks [a, b, c] 2 0 ++
    seqPages (pageChunks [a, b, c] 2) (k + 1 + 1) 2 = [a, b, c]
  rw [seqPages_cons (pageChunks [a, b, c] 2) (k + 1) 2 rfl]
  show pageChunks [a, b, c] 2 0 ++ (pageChunks [a, b, c] 2 2 ++
    seqPages (pageChunks [a, b, c] 2) (k + 1) 3) = [a, b, c]
  rw [seqPages_empty_chunk (pageChunks [a, b, c] 2) 3 rfl (k + 1)]
  rfl

theorem drop_length_take (l : List α) (k : Nat) :
    l.drop (l.take k).length = l.drop k := by
  rw [List.length_take]
  rcases le_or_lt k l.length with hle | hlt
  · rw [min_eq_left hle]
  · rw [min_eq_right (le_of_lt hlt), List.drop_length,
      List.drop_eq_nil_of_le (le_of_lt hlt)]

theorem seqPages_pageChunks (records : List α) (chunkSize : Nat) (hk : 0 < chunkSize) :
    ∀ (fuel s : Nat), records.length - s < fuel →
      seqPages (pageChunks records chunkSize) fuel s = records.drop s := by
  intro fuel
  induction fuel with
  | zero =>
    intro s h
    omega
  | succ fuel ih =>
    intro s h
    by_cases hs : records.length ≤ s
    · have hnil : records.drop s = [] := List.drop_eq_nil_of_le hs
      have hempty : (pageChunks records chunkSize s).isEmpty = true := by
        simp [pageChunks, hnil]
      rw [seqPages_empty_chunk _ _ hempty, hnil]
    · push_neg at hs
      have hclen : (pageChunks records chunkSize s).length =
          min chunkSize (records.length - s) := by
        simp [pageChunks, List.length_take, List.length_drop]
      have hpos : 0 < (pageChunks records chunkSize s).length := by
        rw [hclen]
        omega
      have hne : (pageChunks records chunkSize s).isEmpty = false := by
        cases hc : pageChunks records chunkSize s with
        | nil =>
          rw [hc] at hpos
          simp at hpos
        | cons x xs => rfl
      rw [seqPages_cons _ _ _ hne, ih _ (by rw [hclen]; omega)]
      show pageChunks records chunkSize s ++
        records.drop (s + (pageChunks records chunkSize s).length) = records.drop s
      rw [← List.drop_drop]
      simp only [pageChunks]
      rw [drop_length_take, List.take_append_drop]

theorem range'_flatMap_pageChunks (records : List α) (chunkSize : Nat) :
    ∀ (n s : Nat), (List.range' s n chunkSize).flatMap (pageChunks records chunkSize) =
      (records.drop s).take (n * chunkSize) := by
  intro n
  induction n with
  | zero =>
    intro s
    simp
  | succ n ih =>
    intro s
    rw [List.range'_succ, List.flatMap_cons, ih (s + chunkSize),
      show (n + 1) * chunkSize = chunkSize + n * chunkSize by ring,
      List.take_add, List.drop_drop]
    rfl

theorem range'_getLastD (k : Nat) : ∀ (n s d : Nat),
    (List.range' s (n + 1) k).getLastD d = s + n * k := by
  intro n
  induction n with
  | zero =>
    intro s d
    simp [List.range'_succ]
  | succ n ih =>
    intro s d
    rw [List.range'_succ, List.getLastD_cons, ih (s + k) s]
    ring

/-- `Space.get_api_pages` against any offset-contiguous backing store, at
any chunk size (the source fixes 100) and any advisory size hint: with the
prefetch phase engaged or not, and whatever completion order the thread
pool yields the prefetched chunks in, the stream is a permutation of the
container's records — every record exactly once. -/
theorem get_api_pages_contiguous_perm {α : Type} (records : List α)
    (chunkSize size fuel : Nat) (hk : 0 < chunkSize) (order : List Nat)
    (horder : order.Perm (List.range' 0 ((size + chunkSize - 1) / chunkSize) chunkSize))
    (hfuel : records.length < fuel) :
    (get_api_pages true (pageChunks records chunkSize) chunkSize size fuel order).Perm
      records := by
  rcases hn : (size + chunkSize - 1) / chunkSize with _ | n
  · have hbody : get_api_pages true (pageChunks records chunkSize) chunkSize size fuel
        order = seqPages (pageChunks records chunkSize) fuel 0 := by
      simp [get_api_pages, hn]
    rw [hbody, seqPages_pageChunks records chunkSize hk fuel 0 (by omega)]
    simp
  · rw [hn] at horder
    have hbody : get_api_pages true (pageChunks records chunkSize) chunkSize size fuel
        order =
        (work_in_threads order
          (fun s => (Except.ok (pageChunks records chunkSize s) : Except Unit (List α)))
          (prefetchWorkers size)).flatMap (fun pr => pr.2) ++
          seqPages (pageChunks records chunkSize) fuel
            ((List.range' 0 (n + 1) chunkSize).getLastD 0 + chunkSize) := by
      simp [get_api_pages, hn, List.range'_succ]
    rw [hbody, work_in_threads_all_ok, List.flatMap_map, range'_getLastD,
      seqPages_pageChunks records chunkSize hk fuel _ (by omega)]
    have hpar : (order.flatMap fun s => pageChunks records chunkSize s).Perm
        ((List.range' 0 (n + 1) chunkSize).flatMap fun s =>
          pageChunks records chunkSize s) :=
      horder.flatMap_right _
    have hcov : ((List.range' 0 (n + 1) chunkSize).flatMap fun s =>
        pageChunks records chunkSize s) = records.take ((n + 1) * chunkSize) := by
      rw [range'_flatMap_pageChunks records chunkSize (n + 1) 0, List.drop_zero]
    rw [show 0 + n * chunkSize + chunkSize = (n + 1) * chunkSize by ring]
    have hfinal :=
      (hcov ▸ hpar).append (List.Perm.refl (records.drop ((n + 1) * chunkSize)))
    rw [List.take_append_drop] at hfinal
    exact hfinal

set_option maxRecDepth 10000 in
/-- C1: for a container whose backing pagination returns the pages
`[A,B]`, `[C]`, `[]` (the offset-contiguous store `pageChunks [A,B,C]` with
page shape 2: offset 0 holds `[A,B]`, offset 2 holds `[C]`, offset 3 is
empty), `Space.get_api_pages` yields exactly the records A, B, C each
exactly once, and the yielded multiset is the same whether the advisory
size hint is 0 (prefetch phase not engaged — the result is the plain
sequential traversal) or 200 (prefetch phase engaged — the result is a
permutation, for every completion order of the prefetched chunks).  The
last conjunct states the same engaged/not-engaged indifference at the
source's literal `chunk_size = 100` for every contiguous backing, every
hint and every completion order. -/
theorem get_api_pages_prefetch_equivalence {α : Type} (a b c : α)
    (order : List Nat) (horder : order.Perm (List.range' 0 100 2))
    (fuel : Nat) (hfuel : 3 ≤ fuel) :
    (pageChunks [a, b, c] 2 0 = [a, b] ∧ pageChunks [a, b, c] 2 2 = [c] ∧
      pageChunks [a, b, c] 2 3 = []) ∧
    get_api_pages true (pageChunks [a, b, c] 2) 2 0 fuel [] = [a, b, c] ∧
    (get_api_pages true (pageChunks [a, b, c] 2) 2 200 fuel order).Perm [a, b, c] ∧
    (∀ (records : List α) (size fuel2 : Nat) (order2 : List Nat),
      order2.Perm (List.range' 0 ((size + 100 - 1) / 100) 100) →
      records.length < fuel2 →
      (get_api_pages true (pageChunks records 100) 100 size fuel2 order2).Perm records) := by
  obtain ⟨k, rfl⟩ : ∃ k, fuel = k + 3 := ⟨fuel - 3, by omega⟩
  refine ⟨⟨rfl, rfl, rfl⟩, ?_,
    ⟨?_, fun records size fuel2 order2 h1 h2 =>
      get_api_pages_contiguous_perm records 100 size fuel2 (by omega) order2 h1 h2⟩⟩
  · show seqPages (pageChunks [a, b, c] 2) (k + 3) 0 = [a, b, c]
    exact seqPages_scenario a b c k
  · show ((work_in_threads order
        (fun s => (Except.ok (pageChunks [a, b, c] 2 s) : Except Unit (List α)))
        (prefetchWorkers 200)).flatMap (fun pr => pr.2) ++
      seqPages (pageChunks [a, b, c] 2) (k + 3) 200).Perm [a, b, c]
    rw [work_in_threads_all_ok,
      seqPages_empty_chunk (pageChunks [a, b, c] 2) 200 rfl (k + 3), List.append_nil,
      List.flatMap_map]
    have h1 : (order.flatMap (fun s => pageChunks [a, b, c] 2 s)).Perm
        ((List.range' 0 100 2).flatMap (fun s => pageChunks [a, b, c] 2 s)) :=
      horder.flatMap_right _
    have h2 : (List.range' 0 100 2).flatMap (fun s => pageChunks [a, b, c] 2 s) =
        [a, b, c] := rfl
    exact h2 ▸ h1

/-- Witness for C1 at records 0,1,2 with the identity completion order and
minimal fuel, plus a chunk-100 instance: 250 records under hint 200. -/
theorem get_api_pages_prefetch_equivalence_witness :
    (get_api_pages true (pageChunks [0, 1, 2] 2) 2 0 3 [] = [0, 1, 2] ∧
      (get_api_pages true (pageChunks [0, 1, 2] 2) 2 200 3 (List.range' 0 100 2)).Perm
        [0, 1, 2]) ∧
    (get_api_pages true (pageChunks (List.range 250) 100) 100 200 251
      (List.range' 0 2 100)).Perm (List.range 250) :=
  ⟨⟨(get_api_pages_prefetch_equivalence 0 1 2 (List.range' 0 100 2) (List.Perm.refl _) 3
      (by omega)).2.1,
    (get_api_pages_prefetch_equivalence 0 1 2 (List.range' 0 100 2) (List.Perm.refl _) 3
      (by omega)).2.2.1⟩,
   (get_api_pages_prefetch_equivalence 0 1 2 (List.range' 0 100 2) (List.Perm.refl _) 3
      (by omega)).2.2.2 (List.range 250) 200 251 (List.range' 0 2 100)
      (List.Perm.refl _) (by simp [List.length_range])⟩

end Wikicrawl
